import Mathlib

/-!  Verification model of the newt build-tool resolution core.

     Shallow embedding of:
       - the package store (discovery, load, save, content hash) from
         newt/pkg (pkg.go / pkg_util parts),
       - the stage-ordered code generator from newt/sysinit/sysinit.go,
       - the configuration display / export helpers from newt/cli
         (target command layer).

     Conventions used throughout:
       - A directory tree is modelled by `FsEntry`; the children of a
         directory are stored in the name-sorted order that
         `ioutil.ReadDir` (and `filepath.Walk`) present them in, so list
         order in the model is directory-walk order.
       - Byte strings are modelled as Lean `String` / `List Char`
         (byte-for-byte for the ASCII data these functions handle).
       - A Go `map` used as a dictionary is modelled as an association
         list with replace-on-insert semantics (`mapInsert`); a Go `map`
         that the code only ranges over is modelled as the sequence of
         key/value pairs that the (unspecified, run-dependent) iteration
         presents.
-/

namespace Newt

/-- A filesystem node: a file with byte contents, or a directory whose
children are listed in the name-sorted order `ioutil.ReadDir` returns. -/
inductive FsEntry where
  | file (name : String) (contents : String)
  | dir (name : String) (entries : List FsEntry)

/-- Name of a filesystem node. -/
def FsEntry.name : FsEntry → String
  | .file n _ => n
  | .dir n _ => n

/-- Whether one string begins with another, byte-wise
(`strings.HasPrefix` / `String.startsWith`). -/
def linePrefixed (pre l : String) : Bool :=
  pre.data.isPrefixOf l.data

/-- Byte-wise lexicographic comparison of two character lists (UTF-8
byte order and code-point order agree, so this is the order Go
`sort.Strings` uses). -/
def charListLe : List Char → List Char → Bool
  | [], _ => true
  | _ :: _, [] => false
  | a :: as, b :: bs =>
    if a.toNat < b.toNat then true
    else if b.toNat < a.toNat then false
    else charListLe as bs

/-- Byte-wise lexicographic string order (the order of `sort.Strings`
and `sort.Sort` over name keys). -/
def strLe (a b : String) : Bool := charListLe a.data b.data

/-! ## Package content hash (LocalPackage.Hash) -/

/-- `PackageHashIgnoreDirs` from pkg.go: names whose nodes the hash walk
skips (`obj`, `bin`, `.`). -/
def PackageHashIgnoreDirs (n : String) : Bool :=
  n = "obj" || n = "bin" || n = "."

/-- The byte stream that `LocalPackage.Hash` feeds to sha1 while walking a
list of sibling nodes in walk order.  Mirrors the walk function in
pkg.go: a directory contributes its name and then its children; a file
contributes its contents only (the code writes just `contents` even
though its comment says name and contents); a node whose name is in
`PackageHashIgnoreDirs` makes the walk function return
`filepath.SkipDir`, which for a directory skips that directory and for a
file abandons the remaining siblings of the containing directory. -/
def hashWalkList : List FsEntry → List Char
  | [] => []
  | .file n c :: rest =>
    if PackageHashIgnoreDirs n then [] else c.data ++ hashWalkList rest
  | .dir n es :: rest =>
    if PackageHashIgnoreDirs n then hashWalkList rest
    else (n.data ++ hashWalkList es) ++ hashWalkList rest

/-- The full byte stream `LocalPackage.Hash` feeds to sha1 for a package
whose base directory is the given node (the walk visits the root first;
the digest returned by `Hash` is sha1 of exactly this stream, so equal
streams give equal digests). -/
def hashMessage : FsEntry → List Char
  | .file n c => if PackageHashIgnoreDirs n then [] else c.data
  | .dir n es => if PackageHashIgnoreDirs n then [] else n.data ++ hashWalkList es

/-- All file names occurring in a list of nodes (used to state that two
trees differ in their file names / relative paths). -/
def fileNamesList : List FsEntry → List String
  | [] => []
  | .file n _ :: rest => n :: fileNamesList rest
  | .dir _ es :: rest => fileNamesList es ++ fileNamesList rest

/-! ## Package discovery (ReadLocalPackageRecursive / ReadLocalPackages) -/

/-- `PACKAGE_FILE_NAME` (defined in the pkg package): the package
descriptor file name. -/
def PACKAGE_FILE_NAME : String := "pkg.yml"

/-- `LocalPackageSpecialNames` from pkg.go: reserved directory names that
are package-internal structure (`src`, `include`, `bin`). -/
def LocalPackageSpecialName (n : String) : Bool :=
  n = "src" || n = "include" || n = "bin"

/-- Contents of the descriptor file of a directory, if present.  Loading a
package is modelled as reading the descriptor: the descriptor contents
stand for the `pkg.name` value the yaml parser would extract. -/
def findDescriptor : List FsEntry → Option String
  | [] => none
  | .file n c :: rest => if n = PACKAGE_FILE_NAME then some c else findDescriptor rest
  | .dir _ _ :: rest => findDescriptor rest

/-- The discovered-package map `pkgList : map[string]*LocalPackage`,
modelled as an association list from package name to package base path
(the base path identifies which on-disk package the entry holds). -/
abbrev PkgMap := List (String × String)

/-- Assignment `m[k] = v` on a Go map: replaces the binding for `k` if one
exists, otherwise adds one. -/
def mapInsert (m : PkgMap) (k v : String) : PkgMap :=
  match m with
  | [] => [(k, v)]
  | (k', v') :: rest =>
    if k' = k then (k, v) :: rest else (k', v') :: mapInsert rest k v

mutual

/-- `ReadLocalPackageRecursive(repo, pkgList, basePath, pkgName)` over the
entry list of the directory `basePath/pkgName`: first recurses into every
subdirectory whose name is neither reserved nor hidden, then, if the
directory holds a descriptor file, loads the package and stores it in the
map under its declared name. -/
def ReadLocalPackageRecursive (pkgList : PkgMap) (basePath pkgName : String)
    (entries : List FsEntry) : PkgMap :=
  let l1 := readSubdirs pkgList basePath pkgName entries
  match findDescriptor entries with
  | none => l1
  | some pn => mapInsert l1 pn (basePath ++ "/" ++ pkgName)

/-- The subdirectory loop of `ReadLocalPackageRecursive`: walks the listed
nodes in order, skipping files and skipping directories whose name is a
`LocalPackageSpecialName` or starts with a dot, and recurses into each
remaining directory. -/
def readSubdirs (pkgList : PkgMap) (basePath pkgName : String) :
    List FsEntry → PkgMap
  | [] => pkgList
  | .file _ _ :: rest => readSubdirs pkgList basePath pkgName rest
  | .dir n es :: rest =>
    let acc :=
      if LocalPackageSpecialName n || linePrefixed "." n then pkgList
      else ReadLocalPackageRecursive pkgList basePath (pkgName ++ "/" ++ n) es
    readSubdirs acc basePath pkgName rest

end

/-- `ReadLocalPackages(repo, basePath, searchPaths)`: for every search
path naming a child directory of the project root, walks each of its
non-hidden subdirectories with `ReadLocalPackageRecursive`.  Search paths
that name no existing directory are skipped. -/
def ReadLocalPackages (root : List FsEntry) (basePath : String)
    (searchPaths : List String) : PkgMap :=
  searchPaths.foldl
    (fun acc p =>
      match root.find? (fun e => e.name = p) with
      | some (.dir _ es) =>
        es.foldl
          (fun acc e =>
            match e with
            | .dir n es2 =>
              if linePrefixed "." n then acc
              else ReadLocalPackageRecursive acc (basePath ++ "/" ++ p) n es2
            | .file _ _ => acc)
          acc
      | _ => acc)
    []

mutual

/-- The traversal-order list of packages (declared name, base path) that
discovery finds under a directory, written without an accumulator.
Follows the wording of the spec for the discovery walk, amended to what
the code does: every subdirectory whose name is neither reserved
(`src`, `include`, `bin`) nor hidden is recursed into — whether or not
the current directory holds a descriptor — and after the subdirectories,
the current directory itself contributes a package exactly when it holds
a descriptor file.  Nested packages below a package directory are
therefore discovered, as are siblings. -/
def discoverList (basePath pkgName : String) (entries : List FsEntry) :
    List (String × String) :=
  discoverSubdirsAux basePath pkgName entries ++
    (match findDescriptor entries with
     | none => []
     | some pn => [(pn, basePath ++ "/" ++ pkgName)])

/-- Subdirectory part of `discoverList`. -/
def discoverSubdirsAux (basePath pkgName : String) :
    List FsEntry → List (String × String)
  | [] => []
  | .file _ _ :: rest => discoverSubdirsAux basePath pkgName rest
  | .dir n es :: rest =>
    (if LocalPackageSpecialName n || linePrefixed "." n then []
     else discoverList basePath (pkgName ++ "/" ++ n) es) ++
      discoverSubdirsAux basePath pkgName rest

end

/-- Folding a discovered-package list into a map with Go map assignment
semantics. -/
def foldIns (m : PkgMap) (l : List (String × String)) : PkgMap :=
  l.foldl (fun m p => mapInsert m p.1 p.2) m

/-- The last binding for a key in a traversal-order package list: the
package loaded latest wins when names collide. -/
def lastBind : List (String × String) → String → Option String
  | [], _ => none
  | p :: l, k => (lastBind l k).or (if p.1 = k then some p.2 else none)

/-! ## Package type (LocalPackage.Load) and descriptor save -/

/-- Package type tags (the `PackageType` enumeration of the pkg
package). -/
inductive PackageType where
  | lib
  | bsp
  | app
  | target
  | unittest
deriving DecidableEq

/-- Modelled from the spec: the `PackageTypeNames` table (type tag to
descriptor type string) lives in a pkg-package file that is not under
src/; the spec describes a closed set of known type tags (library,
application, build-target, unit-test, ...), each with its descriptor
name, with `lib` the default. -/
def PackageTypeNames : List (PackageType × String) :=
  [(.lib, "lib"), (.bsp, "bsp"), (.app, "app"),
   (.target, "target"), (.unittest, "unittest")]

/-- The `pkg.type` handling inside `LocalPackage.Load`: the type starts
as `PACKAGE_TYPE_LIB` and the loop over `PackageTypeNames` replaces it
with the tag whose name equals the descriptor string, leaving the
default when no name matches.  No type string is an error. -/
def loadPackageType (typeString : String) : PackageType :=
  match PackageTypeNames.find? (fun tn => tn.2 = typeString) with
  | some tn => tn.1
  | none => PackageType.lib

/-- `PackageTypeNames[t]` (Go map indexing; every tag is in the table). -/
def packageTypeName (t : PackageType) : String :=
  match PackageTypeNames.find? (fun tn => tn.1 = t) with
  | some tn => tn.2
  | none => ""

/-- An entry-point declaration of a package: `p.Init()` maps entry-point
name to stage number.  Modelled from the spec for the sysinit component
(the method itself is in a pkg-package file not under src/): the field
holds the key/value sequence in which one run enumerates the map — Go map
iteration order is unspecified, so two runs over the same map may present
different sequences. -/
structure InitEntry where
  name : String
  stage : Int
deriving DecidableEq

/-- The fields of `pkg.LocalPackage` that the modelled operations read.
`versStr` stands for `Vers().String()` and `repoName` for
`Repo().Name`. -/
structure LocalPackage where
  name : String
  versStr : String
  packageType : PackageType
  description : String
  author : String
  homepage : String
  repoName : String
  init : List InitEntry
deriving DecidableEq

/-- The lines `LocalPackage.Save` writes to the descriptor file, one per
`WriteString` call line (the first call writes a banner line plus a blank
line).  The byte stream written is these lines each followed by a
newline. -/
def saveLines (p : LocalPackage) : List String :=
  ["### Package: " ++ p.name,
   "",
   "pkg.name: " ++ p.name,
   "pkg.vers: " ++ p.versStr,
   "pkg.type: " ++ packageTypeName p.packageType,
   "pkg.description: " ++ p.description,
   "pkg.author: " ++ p.author,
   "pkg.homepage: " ++ p.homepage,
   "pkg.repository: " ++ p.repoName]

/-- The descriptor keys of a rendered descriptor, in file order: for each
line that starts with `pkg.`, the text before the first colon. -/
def keysOf (ls : List String) : List String :=
  (ls.filter (fun l => linePrefixed "pkg." l)).map
    (fun l => String.mk (l.data.takeWhile (fun c => c ≠ ':')))

/-! ## Stage-ordered code generation (newt/sysinit/sysinit.go) -/

/-- Modelled from the spec: the generated-file preamble emitted by
`newtutil.GeneratedPreamble()`, a fixed comment banner (newtutil is not
under src/).  Its exact text does not matter to any claim; it is a
constant. -/
def generatedPreambleLines : List String :=
  ["/**", " * This file was generated by newt.", " */", ""]

/-- Modelled from the spec: `pkg.SortLclPkgs` (not under src/) sorts the
package list by package name, the deterministic package ordering the
generator uses for the prototype section. -/
def SortLclPkgs (pkgs : List LocalPackage) : List LocalPackage :=
  List.insertionSort (fun a b => strLe a.name b.name = true) pkgs

/-- `writePrototypes`: one `void NAME(void);` line per entry point, over
the name-sorted packages, each package contributing its entry points in
the order its `Init()` map is enumerated. -/
def writePrototypesLines (pkgs : List LocalPackage) : List String :=
  (SortLclPkgs pkgs).flatMap
    (fun p => p.init.map (fun e => "void " ++ e.name ++ "(void);"))

/-- All stage numbers registered by the given packages, with repetition,
in encounter order (the keys inserted into the `buildStageMap` map). -/
def registeredStages (pkgs : List LocalPackage) : List Int :=
  pkgs.flatMap (fun p => p.init.map (fun e => e.stage))

/-- The ascending list of distinct registered stages: `buildStageMap`
keys collected and passed through `sort.Ints`. -/
def sortedStages (pkgs : List LocalPackage) : List Int :=
  List.insertionSort (fun a b => a ≤ b) (registeredStages pkgs).dedup

/-- The per-stage entry list `buildStageMap(pkgs)[s]`: the
(package name, entry-point name) pairs registered at stage `s`, in the
order `buildStageMap` appends them — package list order, then the
enumeration order of each package's `Init()` map. -/
def stageFuncs (s : Int) (pkgs : List LocalPackage) : List (String × String) :=
  pkgs.flatMap
    (fun p => (p.init.filter (fun e => e.stage = s)).map
      (fun e => (p.name, e.name)))

/-- The numbered body of one stage block: for the i-th entry of the
stage, a `/* stage.i: package */` comment line and a call line. -/
def stageCallLines (s : Int) : Nat → List (String × String) → List String
  | _, [] => []
  | i, (pn, fn) :: rest =>
    ("    /* " ++ toString s ++ "." ++ toString i ++ ": " ++ pn ++ " */") ::
    ("    " ++ fn ++ "();") ::
    stageCallLines s (i + 1) rest

/-- `writeStage`: the comment-labeled block for one stage. -/
def writeStageLines (s : Int) (funcs : List (String × String)) : List String :=
  ("    /*** Stage " ++ toString s ++ " */") :: stageCallLines s 0 funcs

/-- `write`: the full generated source, as the list of lines emitted (the
byte stream is these lines each followed by a newline; every `Fprintf`
format in the function ends with a newline). -/
def writeLines (pkgs : List LocalPackage) (isLoader : Bool) : List String :=
  generatedPreambleLines ++
  [(if isLoader then "#if SPLIT_LOADER" else "#if !SPLIT_LOADER"), ""] ++
  writePrototypesLines pkgs ++
  [""] ++
  ["void",
   (if isLoader then "sysinit_loader" else "sysinit_app") ++ "(void)",
   "\x7b"] ++
  (sortedStages pkgs).flatMap
    (fun s => "" :: writeStageLines s (stageFuncs s pkgs)) ++
  ["\x7d", "", "#endif"]

/-- The byte stream `write` produces (its buffer contents). -/
def writeOutput (pkgs : List LocalPackage) (isLoader : Bool) : String :=
  String.join ((writeLines pkgs isLoader).map (fun l => l ++ "\n"))

/-- `writeRequired(contents, path)`: the file state at the target path is
`none` when the file does not exist, otherwise `some` of its bytes.  A
missing file requires a write; an existing file requires one exactly when
its bytes differ (`bytes.Compare(oldSrc, contents) != 0`). -/
def writeRequired (contents : String) (file : Option String) : Bool :=
  match file with
  | none => true
  | some oldSrc => oldSrc ≠ contents

/-- `EnsureWritten`: generate the source into a buffer, then write it to
the target file only when `writeRequired` reports a difference.  Returns
the resulting file state and whether the file was written. -/
def EnsureWritten (pkgs : List LocalPackage) (isLoader : Bool)
    (file : Option String) : Option String × Bool :=
  let buf := writeOutput pkgs isLoader
  if writeRequired buf file then (some buf, true) else (file, false)

/-- The lines of a generated file whose text begins with the stage-block
label `/*** Stage `. -/
def stageHeaders (ls : List String) : List String :=
  ls.filter (fun l => linePrefixed "    /*** Stage " l)

/-! ## Configuration display and export (newt/cli target commands) -/

/-- One history entry of a setting: the contributing package (by name,
`Source.Name()`) and the value it set. -/
structure CfgPoint where
  sourceName : String
  value : String
deriving DecidableEq

/-- A `syscfg.CfgEntry`: setting name, effective value, description and
the contribution history (`History[0]` is the unconditioned default). -/
structure CfgEntry where
  name : String
  value : String
  description : String
  history : List CfgPoint
deriving DecidableEq

/-- A `syscfg.Cfg`: the setting map (modelled as an association list
keyed by setting name) and the aggregate error text. -/
structure Cfg where
  settings : List (String × CfgEntry)
  errorText : String

/-- `cfg.Settings[name]` (Go map indexing: the zero `CfgEntry` when the
name is absent). -/
def cfgGet (cfg : Cfg) (n : String) : CfgEntry :=
  (List.lookup n cfg.settings).getD ⟨"", "", "", []⟩

/-- The lines `printSetting` emits for one entry: name, description and
value lines, then — exactly when the history has more than one entry — a
single `Overridden:` line listing the source package of every history
entry after the first (each followed by a comma) and ending with the
default value taken from `History[0]`. -/
def printSettingLines (e : CfgEntry) : List String :=
  ["  * Setting: " ++ e.name,
   "    * Description: " ++ e.description,
   "    * Value: " ++ e.value] ++
  (if e.history.length > 1 then
    ["    * Overridden: " ++
      String.join ((e.history.drop 1).map (fun h => h.sourceName ++ ", ")) ++
      "default=" ++ (e.history.headD ⟨"", ""⟩).value]
   else [])

/-- All entries of a configuration, in setting-map order. -/
def cfgEntries (cfg : Cfg) : List CfgEntry :=
  cfg.settings.map (fun kv => kv.2)

/-- The package a setting originates from. Modelled from the spec:
`syscfg.EntriesByPkg` is in a syscfg-package file not under src/; the
spec groups entries "by their originating package name", the package
that contributed the unconditioned default, `History[0]`. -/
def originOf (e : CfgEntry) : String :=
  (e.history.headD ⟨"", ""⟩).sourceName

/-- Modelled from the spec: `syscfg.EntriesByPkg(cfg)` — the map from
originating package name to the entries that originate from it. -/
def EntriesByPkg (cfg : Cfg) : List (String × List CfgEntry) :=
  ((cfgEntries cfg).map originOf).dedup.map
    (fun p => (p, (cfgEntries cfg).filter (fun e => originOf e = p)))

/-- Name-sort for the key lists the display code builds with
`sort.Strings`. -/
def sortStr (l : List String) : List String :=
  List.insertionSort (fun a b => strLe a b = true) l

/-- The group of entries `EntriesByPkg` associates with a package name. -/
def pkgGroup (cfg : Cfg) (p : String) : List CfgEntry :=
  (List.lookup p (EntriesByPkg cfg)).getD []

/-- The sorted key list of `EntriesByPkg` (Go collects the map keys and
sorts them). -/
def sortedPkgNames (cfg : Cfg) : List String :=
  sortStr ((EntriesByPkg cfg).map (fun g => g.1))

/-- `printPkgCfg`: the package header line, then each of the group's
settings in setting-name-sorted order, looked up in the setting map and
printed with `printSetting`. -/
def printPkgCfgLines (pkgName : String) (cfg : Cfg) (entries : List CfgEntry) :
    List String :=
  ("* PACKAGE: " ++ pkgName) ::
    (sortStr (entries.map (fun e => e.name))).flatMap
      (fun n => printSettingLines (cfgGet cfg n))

/-- `printCfg`: optional error banner, the target header, then one
package group per originating package in name-sorted package order,
groups separated by a blank line. -/
def printCfgLines (targetName : String) (cfg : Cfg) : List String :=
  (if cfg.errorText ≠ "" then ["!!! " ++ cfg.errorText, ""] else []) ++
  ["Syscfg for " ++ targetName ++ ":"] ++
  List.intercalate [""]
    ((sortedPkgNames cfg).map
      (fun p => printPkgCfgLines p cfg (pkgGroup cfg p)))

/-- `yamlPkgCfg`: the `### package` comment line, then one
`name: 'value'` line per setting of the group in setting-name-sorted
order. -/
def yamlPkgCfgLines (pkgName : String) (cfg : Cfg) (entries : List CfgEntry) :
    List String :=
  ("    ### " ++ pkgName) ::
    (sortStr (entries.map (fun e => e.name))).map
      (fun n => "    " ++ n ++ ": '" ++ (cfgGet cfg n).value ++ "'")

/-- `yamlCfg`: the serialized export — the `syscfg.vals:` header, then
one yaml package group per originating package in name-sorted package
order, groups separated by a blank line. -/
def yamlCfgLines (cfg : Cfg) : List String :=
  "syscfg.vals:" ::
    List.intercalate [""]
      ((sortedPkgNames cfg).map
        (fun p => yamlPkgCfgLines p cfg (pkgGroup cfg p)))

/-! ## Concrete example inputs -/

/-- A package that registers two entry points at the same stage, with its
`Init()` map enumerated in one of the two possible orders. -/
def twinInitPkg : LocalPackage :=
  ⟨"mypkg", "", .lib, "", "", "", "", [⟨"a_init", 1⟩, ⟨"b_init", 1⟩]⟩

/-- The same package with the same `Init()` map enumerated in the other
order, as a second run of the tool may observe it. -/
def twinInitPkgRev : LocalPackage :=
  ⟨"mypkg", "", .lib, "", "", "", "", [⟨"b_init", 1⟩, ⟨"a_init", 1⟩]⟩

/-- Scenario package A: exports `a_init` at stage 10. -/
def scenarioPkgA : LocalPackage :=
  ⟨"A", "", .lib, "", "", "", "", [⟨"a_init", 10⟩]⟩

/-- Scenario package B: registers `b_init` at stage 20. -/
def scenarioPkgB : LocalPackage :=
  ⟨"B", "", .lib, "", "", "", "", [⟨"b_init", 20⟩]⟩

/-- Entry list of a package directory that itself holds a descriptor and
contains a nested package directory. -/
def nestedPkgTree : List FsEntry :=
  [.dir "nested" [.file "pkg.yml" "pkgB"], .file "pkg.yml" "pkgA"]

/-- Entry list of a directory with two sibling package directories whose
descriptors declare the same package name. -/
def dupNameTree : List FsEntry :=
  [.dir "one" [.file "pkg.yml" "dup"], .dir "two" [.file "pkg.yml" "dup"]]

/-- Entry list with a descriptor inside a hidden directory, one inside a
reserved directory and one inside an ordinary subdirectory. -/
def skipTree : List FsEntry :=
  [.dir ".git" [.file "pkg.yml" "hiddenpkg"],
   .dir "src" [.file "pkg.yml" "srcpkg"],
   .dir "sub" [.file "pkg.yml" "subpkg"]]

/-- A setting with exactly one history entry beyond the default. -/
def onceOverridden : CfgEntry :=
  ⟨"S", "1", "desc", [⟨"pkgX", "0"⟩, ⟨"pkgY", "1"⟩]⟩

/-- A small merged configuration with two originating packages. -/
def demoCfg : Cfg :=
  ⟨[("S_B", ⟨"S_B", "1", "", [⟨"pkgB", "0"⟩]⟩),
    ("S_A", ⟨"S_A", "2", "", [⟨"pkgA", "0"⟩, ⟨"pkgC", "2"⟩]⟩),
    ("S_A2", ⟨"S_A2", "3", "", [⟨"pkgA", "3"⟩]⟩)], ""⟩

/-! # Theorems -/

/-- **C2.** The spec (and the comment inside `Hash` itself) says each
non-ignored file folds its *name and* byte contents into the digest, so
that the digest is a function of contents and relative paths.  The code
writes only the file contents: renaming the single file of a package
leaves the sha1 input stream — hence the digest — unchanged, while the
tracked relative paths differ.  The claim is right and the code is wrong
(`hash.Write(contents)` with no preceding `hash.Write([]byte(name))`,
contradicting the comment directly above it). -/
theorem hash_message_ignores_file_names :
    hashMessage (.dir "pkg" [.file "a" "x"]) =
      hashMessage (.dir "pkg" [.file "b" "x"]) ∧
    fileNamesList [FsEntry.dir "pkg" [.file "a" "x"]] ≠
      fileNamesList [FsEntry.dir "pkg" [.file "b" "x"]] := by
  constructor
  · simp [hashMessage, hashWalkList, PackageHashIgnoreDirs]
  · simp [fileNamesList]

/-- **C3.** `writeRequired` reports a write as required exactly when the
file is absent or its bytes differ from the generated contents, and
running `EnsureWritten` a second time against the file state left by a
first run (same packages, same variant) performs no write and leaves the
file state untouched. -/
theorem EnsureWritten_idempotent :
    (∀ contents : String, writeRequired contents none = true) ∧
    (∀ contents oldSrc : String,
      writeRequired contents (some oldSrc) = decide (oldSrc ≠ contents)) ∧
    (∀ (pkgs : List LocalPackage) (isLoader : Bool) (file : Option String),
      EnsureWritten pkgs isLoader (EnsureWritten pkgs isLoader file).1 =
        ((EnsureWritten pkgs isLoader file).1, false)) := by
  refine ⟨fun _ => rfl, fun _ _ => rfl, fun pkgs isLoader file => ?_⟩
  by_cases h : writeRequired (writeOutput pkgs isLoader) file
  · simp only [EnsureWritten, h, if_true]
    simp [writeRequired]
  · simp only [EnsureWritten, h, if_false]
    simp only [Bool.false_eq_true] at h
    simp [h]

/-- **C1.** The generated output is *not* byte-identical across two runs
on unchanged inputs: `buildStageMap` and `writePrototypes` range over the
Go map `p.Init()`, whose iteration order is unspecified and varies
between runs.  For one package registering `a_init` and `b_init` at the
same stage, the two possible enumerations of the same map (they are
permutations of each other, over distinct keys) yield different generated
bytes.  The spec demands determinism and later upstream versions sort the
entry-point names, so the claim is right and the code is a slip. -/
theorem write_depends_on_map_enumeration :
    twinInitPkg.init.Perm twinInitPkgRev.init ∧
    (twinInitPkg.init.map (fun e => e.name)).Nodup ∧
    twinInitPkg.name = twinInitPkgRev.name ∧
    writeOutput [twinInitPkg] false ≠ writeOutput [twinInitPkgRev] false := by
  refine ⟨List.Perm.swap .., by decide, rfl, by decide⟩

/-- **C6.** `Load` starts from the default `lib` type and replaces it only
when the descriptor type string equals one of the known type names: an
unknown string falls back to the library type without an error, and every
known name maps to its tag. -/
theorem load_type_defaults_to_lib :
    (∀ ts : String, ts ∉ PackageTypeNames.map (fun tn => tn.2) →
      loadPackageType ts = PackageType.lib) ∧
    (∀ t n, (t, n) ∈ PackageTypeNames → loadPackageType n = t) := by
  constructor
  · intro ts h
    have hf : PackageTypeNames.find? (fun tn => tn.2 = ts) = none := by
      refine List.find?_eq_none.mpr ?_
      intro x hx
      simp only [decide_eq_true_eq]
      intro hx2
      exact h (hx2 ▸ List.mem_map_of_mem (fun tn => tn.2) hx)
    simp [loadPackageType, hf]
  · intro t n h
    simp only [PackageTypeNames, List.mem_cons, List.mem_singleton,
      Prod.mk.injEq, List.not_mem_nil, or_false] at h
    rcases h with ⟨rfl, rfl⟩ | ⟨rfl, rfl⟩ | ⟨rfl, rfl⟩ | ⟨rfl, rfl⟩ | ⟨rfl, rfl⟩ <;> rfl

/-- **C6 witness.** An unknown type string loads as `lib`; the known name
`target` loads as the target tag. -/
theorem load_type_defaults_to_lib_witness :
    loadPackageType "no_such_type" = PackageType.lib ∧
    loadPackageType "target" = PackageType.target :=
  ⟨load_type_defaults_to_lib.1 "no_such_type" (by decide),
   load_type_defaults_to_lib.2 PackageType.target "target" (by decide)⟩

/-! ## Discovery refinement lemmas -/

theorem foldIns_append (m : PkgMap) (a b : List (String × String)) :
    foldIns m (a ++ b) = foldIns (foldIns m a) b :=
  List.foldl_append ..

/-- Joint refinement of the accumulator-passing discovery walk to the
spec-side traversal list, by strong induction on the tree size. -/
theorem discover_refines_aux :
    ∀ fuel : Nat, ∀ es : List FsEntry, sizeOf es ≤ fuel →
      ((∀ m bp pn, readSubdirs m bp pn es =
          foldIns m (discoverSubdirsAux bp pn es)) ∧
       (∀ m bp pn, ReadLocalPackageRecursive m bp pn es =
          foldIns m (discoverList bp pn es))) := by
  intro fuel
  induction fuel with
  | zero =>
    intro es h
    exfalso
    cases es <;> simp_arith at h
  | succ k ih =>
    intro es h
    have hsub : ∀ m bp pn, readSubdirs m bp pn es =
        foldIns m (discoverSubdirsAux bp pn es) := by
      cases es with
      | nil => intro m bp pn; simp [readSubdirs, discoverSubdirsAux, foldIns]
      | cons e rest =>
        intro m bp pn
        cases e with
        | file n c =>
          have hrest : sizeOf rest ≤ k := by simp_arith at h; omega
          simp only [readSubdirs, discoverSubdirsAux]
          exact (ih rest hrest).1 m bp pn
        | dir n es2 =>
          have hrest : sizeOf rest ≤ k := by simp_arith at h; omega
          have hes2 : sizeOf es2 ≤ k := by simp_arith at h; omega
          simp only [readSubdirs, discoverSubdirsAux]
          rw [foldIns_append]
          by_cases hskip : (LocalPackageSpecialName n || linePrefixed "." n) = true
          · rw [if_pos hskip, if_pos hskip]
            exact (ih rest hrest).1 m bp pn
          · rw [if_neg hskip, if_neg hskip]
            rw [(ih es2 hes2).2 m bp (pn ++ "/" ++ n)]
            exact (ih rest hrest).1 _ bp pn
    refine ⟨hsub, ?_⟩
    intro m bp pn
    simp only [ReadLocalPackageRecursive, discoverList]
    rw [foldIns_append, ← hsub m bp pn]
    cases hd : findDescriptor es with
    | none => simp [foldIns]
    | some pn' => simp [foldIns]

theorem lookup_cons {β : Type} (key k : String) (v : β)
    (rest : List (String × β)) :
    List.lookup key ((k, v) :: rest) =
      if key = k then some v else List.lookup key rest := by
  by_cases h : key = k
  · simp [List.lookup, h]
  · have hb : (key == k) = false := beq_eq_false_iff_ne.mpr h
    simp [List.lookup, hb, h]

theorem lookup_mapInsert (k v key : String) :
    ∀ m : PkgMap, List.lookup key (mapInsert m k v) =
      if key = k then some v else List.lookup key m := by
  intro m
  induction m with
  | nil =>
    show List.lookup key [(k, v)] = _
    rw [lookup_cons]
  | cons p rest ih =>
    obtain ⟨k', v'⟩ := p
    by_cases h1 : k' = k
    · subst h1
      rw [show mapInsert ((k', v') :: rest) k' v = (k', v) :: rest by
            simp [mapInsert]]
      rw [lookup_cons, lookup_cons]
      split_ifs <;> rfl
    · rw [show mapInsert ((k', v') :: rest) k v = (k', v') :: mapInsert rest k v by
            simp [mapInsert, h1]]
      rw [lookup_cons, ih, lookup_cons]
      by_cases h2 : key = k'
      · subst h2
        rw [if_pos rfl, if_neg (fun hh : key = k => h1 hh), if_pos rfl]
      · rw [if_neg h2, if_neg h2]

theorem lookup_foldIns (l : List (String × String)) :
    ∀ (m : PkgMap) (key : String),
      List.lookup key (foldIns m l) =
        (lastBind l key).or (List.lookup key m) := by
  induction l with
  | nil => intro m key; simp [foldIns, lastBind]
  | cons p l ih =>
    intro m key
    have h0 : foldIns m (p :: l) = foldIns (mapInsert m p.1 p.2) l := rfl
    rw [h0, ih, lookup_mapInsert, lastBind]
    by_cases h : key = p.1
    · cases hl : lastBind l key <;>
        simp [Option.or, h, hl, if_pos (h.symm : p.1 = key)]
    · cases hl : lastBind l key <;>
        simp [Option.or, h, hl, if_neg (fun hh : p.1 = key => h hh.symm)]

/-- **C4 (amended).** The discovery walk recurses into every
subdirectory that is neither hidden nor one of the reserved names `src`,
`include`, `bin`, *including* the subdirectories of a directory that
holds a descriptor file — it does recurse past a found package, and
discovers nested packages as well as siblings; every visited directory
with a descriptor contributes a package.  Formally the walk equals the
Go-map fold of the traversal-order package list `discoverList`, and on a
tree with descriptors inside a hidden directory, a reserved directory
and an ordinary one, only the ordinary one is discovered. -/
theorem discovery_walk_amended :
    (∀ (m : PkgMap) (basePath pkgName : String) (entries : List FsEntry),
      ReadLocalPackageRecursive m basePath pkgName entries =
        foldIns m (discoverList basePath pkgName entries)) ∧
    ReadLocalPackageRecursive [] "" "root" skipTree =
      [("subpkg", "/root/sub")] := by
  constructor
  · exact fun m bp pn es => (discover_refines_aux (sizeOf es) es le_rfl).2 m bp pn
  · simp [ReadLocalPackageRecursive, readSubdirs, skipTree, findDescriptor,
      LocalPackageSpecialName, linePrefixed, PACKAGE_FILE_NAME, mapInsert,
      List.isPrefixOf]

/-- **C4 counterexample.** The claim says discovery does not recurse past
a found package looking for nested packages.  The directory `a` holds a
descriptor (it is a package boundary), yet the package declared by the
descriptor inside its subdirectory `a/nested` is discovered as well —
the code recurses into subdirectories before it ever checks for the
descriptor. -/
theorem discovery_finds_nested_package :
    findDescriptor nestedPkgTree = some "pkgA" ∧
    ReadLocalPackageRecursive [] "" "a" nestedPkgTree =
      [("pkgB", "/a/nested"), ("pkgA", "/a")] := by
  constructor
  · simp [nestedPkgTree, findDescriptor, PACKAGE_FILE_NAME]
  · simp [ReadLocalPackageRecursive, readSubdirs, nestedPkgTree, findDescriptor,
      LocalPackageSpecialName, linePrefixed, PACKAGE_FILE_NAME, mapInsert,
      List.isPrefixOf]

/-- **C10.** Discovery performs no duplicate-name check: the result map
is the plain Go-map-assignment fold over the traversal-order package
list, so looking up any name yields the binding loaded latest in
traversal order (falling back to the pre-existing map); the walk has no
error or warning path for duplicates.  With two sibling directories both
declaring `dup`, the traversal finds both and the returned map holds
only the one loaded later. -/
theorem discovery_last_package_wins :
    (∀ (m : PkgMap) (basePath pkgName key : String) (entries : List FsEntry),
      List.lookup key (ReadLocalPackageRecursive m basePath pkgName entries) =
        (lastBind (discoverList basePath pkgName entries) key).or
          (List.lookup key m)) ∧
    discoverList "" "r" dupNameTree =
      [("dup", "/r/one"), ("dup", "/r/two")] ∧
    ReadLocalPackageRecursive [] "" "r" dupNameTree = [("dup", "/r/two")] := by
  refine ⟨?_, ?_, ?_⟩
  · intro m bp pn key es
    rw [(discover_refines_aux (sizeOf es) es le_rfl).2 m bp pn]
    exact lookup_foldIns _ m key
  · simp [discoverList, discoverSubdirsAux, dupNameTree, findDescriptor,
      LocalPackageSpecialName, linePrefixed, PACKAGE_FILE_NAME,
      List.isPrefixOf]
  · simp [ReadLocalPackageRecursive, readSubdirs, dupNameTree, findDescriptor,
      LocalPackageSpecialName, linePrefixed, PACKAGE_FILE_NAME, mapInsert,
      List.isPrefixOf]

/-! ## The byte-wise string order is total and transitive -/

theorem charListLe_total : ∀ xs ys : List Char,
    charListLe xs ys = true ∨ charListLe ys xs = true := by
  intro xs
  induction xs with
  | nil => intro ys; left; rfl
  | cons a as ih =>
    intro ys
    cases ys with
    | nil => right; rfl
    | cons b bs =>
      show (if a.toNat < b.toNat then true
            else if b.toNat < a.toNat then false else charListLe as bs) = true ∨
           (if b.toNat < a.toNat then true
            else if a.toNat < b.toNat then false else charListLe bs as) = true
      by_cases h1 : a.toNat < b.toNat
      · left; simp [h1]
      · by_cases h2 : b.toNat < a.toNat
        · right; simp [h2]
        · rcases ih bs with h | h
          · left; simp [h1, h2, h]
          · right; simp [h1, h2, h]

theorem charListLe_trans : ∀ xs ys zs : List Char,
    charListLe xs ys = true → charListLe ys zs = true →
      charListLe xs zs = true := by
  intro xs
  induction xs with
  | nil => intro ys zs _ _; rfl
  | cons a as ih =>
    intro ys zs h1 h2
    cases ys with
    | nil => simp [charListLe] at h1
    | cons b bs =>
      cases zs with
      | nil => simp [charListLe] at h2
      | cons c cs =>
        have h1' : (if a.toNat < b.toNat then true
            else if b.toNat < a.toNat then false else charListLe as bs) = true := h1
        have h2' : (if b.toNat < c.toNat then true
            else if c.toNat < b.toNat then false else charListLe bs cs) = true := h2
        show (if a.toNat < c.toNat then true
            else if c.toNat < a.toNat then false else charListLe as cs) = true
        by_cases hab : a.toNat < b.toNat <;> by_cases hba : b.toNat < a.toNat <;>
          by_cases hbc : b.toNat < c.toNat <;> by_cases hcb : c.toNat < b.toNat <;>
          by_cases hac : a.toNat < c.toNat <;> by_cases hca : c.toNat < a.toNat <;>
          simp [hab, hba, hbc, hcb, hac, hca] at h1' h2' ⊢ <;>
          first
            | omega
            | exact ih bs cs h1' h2'

instance : IsTotal String (fun a b => strLe a b = true) :=
  ⟨fun a b => charListLe_total a.data b.data⟩

instance : IsTrans String (fun a b => strLe a b = true) :=
  ⟨fun a b c => charListLe_trans a.data b.data c.data⟩

/-! ## Byte-prefix helper lemmas -/

theorem isPrefixOf_append_same : ∀ (l l1 l2 : List Char),
    (l ++ l1).isPrefixOf (l ++ l2) = l1.isPrefixOf l2
  | [], _, _ => rfl
  | c :: l, l1, l2 => by
    show (c == c && (l ++ l1).isPrefixOf (l ++ l2)) = l1.isPrefixOf l2
    rw [beq_self_eq_true, Bool.true_and, isPrefixOf_append_same l l1 l2]

theorem isPrefixOf_head_false (c d : Char) (l1 l2 : List Char) (h : ¬ c = d) :
    (c :: l1).isPrefixOf (d :: l2) = false := by
  show (c == d && l1.isPrefixOf l2) = false
  rw [beq_eq_false_iff_ne.mpr h, Bool.false_and]

theorem isPrefixOf_head?_false (c : Char) (l1 l2 : List Char)
    (h : l2.head? ≠ some c) : (c :: l1).isPrefixOf l2 = false := by
  cases l2 with
  | nil => rfl
  | cons d t =>
    refine isPrefixOf_head_false c d l1 t (fun hc => h ?_)
    rw [List.head?_cons, ← hc]

theorem isPrefixOf_append_left : ∀ (l1 l2 l3 : List Char),
    l1.isPrefixOf l2 = true → l1.isPrefixOf (l2 ++ l3) = true
  | [], _, _, _ => by simp [List.isPrefixOf]
  | a :: l1, [], l3, h => by simp [List.isPrefixOf] at h
  | a :: l1, b :: l2, l3, h => by
    have h' : (a == b && l1.isPrefixOf l2) = true := h
    rw [Bool.and_eq_true] at h'
    show (a == b && l1.isPrefixOf (l2 ++ l3)) = true
    rw [h'.1, isPrefixOf_append_left l1 l2 l3 h'.2, Bool.and_self]

theorem isPrefixOf_refl_true : ∀ l : List Char, l.isPrefixOf l = true
  | [] => rfl
  | a :: l => by
    show (a == a && l.isPrefixOf l) = true
    rw [beq_self_eq_true, Bool.true_and, isPrefixOf_refl_true l]

theorem isPrefixOf_mismatch (p r1 r2 t : List Char) (c d : Char) (h : ¬ c = d) :
    (p ++ c :: r1).isPrefixOf ((p ++ d :: r2) ++ t) = false := by
  rw [List.append_assoc, List.cons_append, isPrefixOf_append_same]
  exact isPrefixOf_head_false c d r1 (r2 ++ t) h

/-- A line made of a literal head (that mismatches the sought text within
the literal) followed by arbitrary text never carries the sought text as
a byte prefix. -/
theorem linePrefixed_mismatch (pre lit : String) (p r1 r2 : List Char)
    (c d : Char) (h1 : pre.data = p ++ c :: r1) (h2 : lit.data = p ++ d :: r2)
    (hcd : ¬ c = d) (s : String) : linePrefixed pre (lit ++ s) = false := by
  unfold linePrefixed
  rw [String.data_append, h1, h2]
  exact isPrefixOf_mismatch p r1 r2 s.data c d hcd

theorem linePrefixed_lit_append (pre lit s : String)
    (h : linePrefixed pre lit = true) : linePrefixed pre (lit ++ s) = true := by
  unfold linePrefixed at h ⊢
  rw [String.data_append]
  exact isPrefixOf_append_left _ _ _ h

theorem linePrefixed_self_append (pre s : String) :
    linePrefixed pre (pre ++ s) = true := by
  unfold linePrefixed
  rw [String.data_append]
  exact isPrefixOf_append_left _ _ _ (isPrefixOf_refl_true _)

/-- A line made of a literal equal to a strict prefix of the sought text,
followed by text whose first byte mismatches the next sought byte, never
carries the sought text as a byte prefix. -/
theorem linePrefixed_var_false (pre lit : String) (p r1 : List Char)
    (c : Char) (h1 : pre.data = p ++ c :: r1) (h2 : lit.data = p)
    (v t : String) (hv : (v.data ++ t.data).head? ≠ some c) :
    linePrefixed pre (lit ++ (v ++ t)) = false := by
  unfold linePrefixed
  rw [String.data_append, String.data_append, h1, h2, isPrefixOf_append_same]
  exact isPrefixOf_head?_false c r1 _ hv

theorem head?_append_ne (v t : List Char) (c : Char) (hv : v.head? ≠ some c)
    (ht : t.head? ≠ some c) : (v ++ t).head? ≠ some c := by
  cases v with
  | nil => exact ht
  | cons a l =>
    rw [List.cons_append, List.head?_cons]
    rw [List.head?_cons] at hv
    exact hv

theorem takeWhile_append_stop (q : Char → Bool) :
    ∀ (a b : List Char), a.any (fun c => !q c) = true →
      (a ++ b).takeWhile q = a.takeWhile q := by
  intro a b h
  induction a with
  | nil => simp [List.any_nil] at h
  | cons c l ih =>
    rw [List.cons_append, List.takeWhile_cons, List.takeWhile_cons]
    cases hq : q c with
    | true =>
      rw [List.any_cons, hq] at h
      simp only [Bool.not_true, Bool.false_or] at h
      simp [ih h]
    | false => simp

/-- **C7 counterexample.** The claim says a setting is displayed as
overridden exactly when it has *more than one* history entry beyond the
default.  `onceOverridden` has exactly one entry beyond the default, yet
`printSetting` (whose guard is `len(entry.History) > 1`) does emit the
`Overridden:` line for it. -/
theorem printSetting_overridden_at_single_override :
    (printSettingLines onceOverridden).any
      (fun l => linePrefixed "    * Overridden: " l) = true ∧
    onceOverridden.history.length - 1 = 1 := by
  decide

/-- **C7 (amended).** `printSetting` displays a setting as overridden
exactly when its history has more than one entry — that is, at least one
entry beyond the `history[0]` default — and in that case the override
line lists the contributing package of every history entry after the
first (comma-separated) together with the default value taken from
`history[0]`. -/
theorem printSetting_overridden_iff (e : CfgEntry) :
    ((printSettingLines e).any (fun l => linePrefixed "    * Overridden: " l) =
      decide (e.history.length > 1)) ∧
    (e.history.length > 1 →
      ("    * Overridden: " ++
        String.join ((e.history.drop 1).map (fun h => h.sourceName ++ ", ")) ++
        "default=" ++ (e.history.headD ⟨"", ""⟩).value) ∈ printSettingLines e) := by
  have h1 : linePrefixed "    * Overridden: " ("  * Setting: " ++ e.name) = false :=
    linePrefixed_mismatch _ _ ("  ".data) (" * Overridden: ".data)
      (" Setting: ".data) ' ' '*' (by decide) (by decide) (by decide) e.name
  have h2 : linePrefixed "    * Overridden: "
      ("    * Description: " ++ e.description) = false :=
    linePrefixed_mismatch _ _ ("    * ".data) ("verridden: ".data)
      ("escription: ".data) 'O' 'D' (by decide) (by decide) (by decide)
      e.description
  have h3 : linePrefixed "    * Overridden: " ("    * Value: " ++ e.value) = false :=
    linePrefixed_mismatch _ _ ("    * ".data) ("verridden: ".data)
      ("alue: ".data) 'O' 'V' (by decide) (by decide) (by decide) e.value
  constructor
  · unfold printSettingLines
    rw [List.any_append]
    simp only [List.any_cons, List.any_nil, h1, h2, h3, Bool.or_false,
      Bool.false_or]
    by_cases hlen : e.history.length > 1
    · rw [if_pos hlen]
      simp only [List.any_cons, List.any_nil, Bool.or_false]
      rw [String.append_assoc, String.append_assoc, linePrefixed_self_append]
      simp [hlen]
    · rw [if_neg hlen]
      simp [hlen]
  · intro hlen
    unfold printSettingLines
    rw [if_pos hlen]
    simp

/-- **C7 amended witness.** The amended theorem applied to the concrete
once-overridden entry: its override line is displayed. -/
theorem printSetting_overridden_iff_witness :
    ("    * Overridden: " ++
      String.join ((onceOverridden.history.drop 1).map
        (fun h => h.sourceName ++ ", ")) ++
      "default=" ++ (onceOverridden.history.headD ⟨"", ""⟩).value) ∈
      printSettingLines onceOverridden :=
  (printSetting_overridden_iff onceOverridden).2 (by decide)

/-- **C9.** `Save` renders the descriptor with exactly the keys
`pkg.name`, `pkg.vers`, `pkg.type`, `pkg.description`, `pkg.author`,
`pkg.homepage`, `pkg.repository`, in that fixed order, for every
package. -/
theorem save_writes_fixed_key_order (p : LocalPackage) :
    keysOf (saveLines p) =
      ["pkg.name", "pkg.vers", "pkg.type", "pkg.description",
       "pkg.author", "pkg.homepage", "pkg.repository"] := by
  have hb : linePrefixed "pkg." ("### Package: " ++ p.name) = false :=
    linePrefixed_mismatch _ _ [] ("kg.".data) ("## Package: ".data)
      'p' '#' (by decide) (by decide) (by decide) p.name
  have he : linePrefixed "pkg." "" = false := by decide
  have h1 : linePrefixed "pkg." ("pkg.name: " ++ p.name) = true :=
    linePrefixed_lit_append _ _ _ (by decide)
  have h2 : linePrefixed "pkg." ("pkg.vers: " ++ p.versStr) = true :=
    linePrefixed_lit_append _ _ _ (by decide)
  have h3 : linePrefixed "pkg."
      ("pkg.type: " ++ packageTypeName p.packageType) = true :=
    linePrefixed_lit_append _ _ _ (by decide)
  have h4 : linePrefixed "pkg." ("pkg.description: " ++ p.description) = true :=
    linePrefixed_lit_append _ _ _ (by decide)
  have h5 : linePrefixed "pkg." ("pkg.author: " ++ p.author) = true :=
    linePrefixed_lit_append _ _ _ (by decide)
  have h6 : linePrefixed "pkg." ("pkg.homepage: " ++ p.homepage) = true :=
    linePrefixed_lit_append _ _ _ (by decide)
  have h7 : linePrefixed "pkg." ("pkg.repository: " ++ p.repoName) = true :=
    linePrefixed_lit_append _ _ _ (by decide)
  have hkey : ∀ (lit s : String),
      lit.data.any (fun c => !(decide (c ≠ ':'))) = true →
      String.mk (((lit ++ s).data).takeWhile (fun c => c ≠ ':')) =
        String.mk (lit.data.takeWhile (fun c => c ≠ ':')) := by
    intro lit s hl
    rw [String.data_append, takeWhile_append_stop _ _ _ hl]
  unfold keysOf saveLines
  simp only [List.filter_cons, List.filter_nil, hb, he, h1, h2, h3, h4, h5,
    h6, h7, if_true, if_false, Bool.false_eq_true, List.map_cons, List.map_nil]
  rw [hkey "pkg.name: " _ (by decide), hkey "pkg.vers: " _ (by decide),
    hkey "pkg.type: " _ (by decide), hkey "pkg.description: " _ (by decide),
    hkey "pkg.author: " _ (by decide), hkey "pkg.homepage: " _ (by decide),
    hkey "pkg.repository: " _ (by decide)]
  decide

/-! ## Stage-header extraction lemmas -/

theorem filter_flatMap {α : Type} (p : String → Bool) (f : α → List String) :
    ∀ l : List α, (l.flatMap f).filter p = l.flatMap (fun a => (f a).filter p) := by
  intro l
  induction l with
  | nil => rfl
  | cons a l ih => simp [List.flatMap_cons, List.filter_append, ih]

theorem flatMap_eq_nil_of {α : Type} (f : α → List String) :
    ∀ l : List α, (∀ a ∈ l, f a = []) → l.flatMap f = [] := by
  intro l
  induction l with
  | nil => intro _; rfl
  | cons a l ih =>
    intro h
    rw [List.flatMap_cons, h a (List.mem_cons_self a l), List.nil_append]
    exact ih (fun b hb => h b (List.mem_cons_of_mem a hb))

theorem flatMap_congr_map {α : Type} (f : α → List String) (g : α → String) :
    ∀ l : List α, (∀ a ∈ l, f a = [g a]) → l.flatMap f = l.map g := by
  intro l
  induction l with
  | nil => intro _; rfl
  | cons a l ih =>
    intro h
    rw [List.flatMap_cons, h a (List.mem_cons_self a l), List.map_cons,
      List.singleton_append]
    rw [ih (fun b hb => h b (List.mem_cons_of_mem a hb))]

theorem filter_map_nil {α : Type} (f : α → String) (p : String → Bool) :
    ∀ l : List α, (∀ e ∈ l, p (f e) = false) → (l.map f).filter p = [] := by
  intro l
  induction l with
  | nil => intro _; rfl
  | cons a l ih =>
    intro h
    rw [List.map_cons, List.filter_cons, h a (List.mem_cons_self a l)]
    simp only [Bool.false_eq_true, if_false]
    exact ih (fun b hb => h b (List.mem_cons_of_mem a hb))

theorem proto_line_false (nm : String) :
    linePrefixed "    /*** Stage " ("void " ++ nm ++ "(void);") = false := by
  rw [String.append_assoc]
  exact linePrefixed_mismatch _ _ [] ("   /*** Stage ".data) ("oid ".data)
    ' ' 'v' (by decide) (by decide) (by decide) _

theorem comment_line_false (s : Int) (i : Nat) (pn : String) :
    linePrefixed "    /*** Stage "
      ("    /* " ++ toString s ++ "." ++ toString i ++ ": " ++ pn ++ " */") =
      false := by
  simp only [String.append_assoc]
  exact linePrefixed_mismatch _ _ ("    /*".data) ("* Stage ".data) []
    '*' ' ' (by decide) (by decide) (by decide) _

theorem call_line_false (fn : String)
    (h : (fn.data ++ "();".data).head? ≠ some '/') :
    linePrefixed "    /*** Stage " ("    " ++ fn ++ "();") = false := by
  rw [String.append_assoc]
  exact linePrefixed_var_false _ _ ("    ".data) ("*** Stage ".data) '/'
    (by decide) (by decide) fn "();" h

theorem header_line_true (s : Int) :
    linePrefixed "    /*** Stage "
      ("    /*** Stage " ++ toString s ++ " */") = true := by
  rw [String.append_assoc]
  exact linePrefixed_self_append _ _

theorem stageCallLines_filter (s : Int) :
    ∀ (i : Nat) (funcs : List (String × String)),
      (∀ pf ∈ funcs, ((pf.2 : String).data ++ "();".data).head? ≠ some '/') →
      (stageCallLines s i funcs).filter
        (fun l => linePrefixed "    /*** Stage " l) = [] := by
  intro i funcs
  induction funcs generalizing i with
  | nil => intro _; rfl
  | cons pf rest ih =>
    intro h
    obtain ⟨pn, fn⟩ := pf
    show (("    /* " ++ toString s ++ "." ++ toString i ++ ": " ++ pn ++ " */") ::
      ("    " ++ fn ++ "();") :: stageCallLines s (i + 1) rest).filter _ = []
    rw [List.filter_cons, List.filter_cons]
    have hfn : (fn.data ++ "();".data).head? ≠ some '/' :=
      h (pn, fn) (List.mem_cons_self _ _)
    simp only [comment_line_false s i pn, call_line_false fn hfn,
      Bool.false_eq_true, if_false]
    exact ih (i + 1) (fun pf hpf => h pf (List.mem_cons_of_mem _ hpf))

theorem stageCallLines_mem (s : Int) (pn fn : String) :
    ∀ (i : Nat) (funcs : List (String × String)), (pn, fn) ∈ funcs →
      ("    " ++ fn ++ "();") ∈ stageCallLines s i funcs ∧
      ∃ j : Nat, ("    /* " ++ toString s ++ "." ++ toString j ++ ": " ++
        pn ++ " */") ∈ stageCallLines s i funcs := by
  intro i funcs
  induction funcs generalizing i with
  | nil => intro h; cases h
  | cons pf rest ih =>
    intro h
    obtain ⟨pn', fn'⟩ := pf
    show _ ∈ (("    /* " ++ toString s ++ "." ++ toString i ++ ": " ++ pn' ++ " */") ::
        ("    " ++ fn' ++ "();") :: stageCallLines s (i + 1) rest) ∧ _
    rcases List.mem_cons.mp h with heq | hmem
    · obtain ⟨h1, h2⟩ := Prod.mk.injEq .. ▸ heq
      subst h1; subst h2
      refine ⟨List.mem_cons_of_mem _ (List.mem_cons_self _ _), i, List.mem_cons_self _ _⟩
    · obtain ⟨hcall, j, hcmt⟩ := ih (i + 1) hmem
      exact ⟨List.mem_cons_of_mem _ (List.mem_cons_of_mem _ hcall),
        j, List.mem_cons_of_mem _ (List.mem_cons_of_mem _ hcmt)⟩

/-- The stage-header lines of the generated source are exactly one line
per registered stage, in the sorted stage order. -/
theorem stageHeaders_writeLines (pkgs : List LocalPackage) (isLoader : Bool)
    (hnames : ∀ p ∈ pkgs, ∀ e ∈ p.init,
      (e.name.data ++ "();".data).head? ≠ some '/') :
    stageHeaders (writeLines pkgs isLoader) =
      (sortedStages pkgs).map
        (fun s => "    /*** Stage " ++ toString s ++ " */") := by
  have hproto : (writePrototypesLines pkgs).filter
      (fun l => linePrefixed "    /*** Stage " l) = [] := by
    unfold writePrototypesLines
    rw [filter_flatMap]
    refine flatMap_eq_nil_of _ _ (fun p hp => ?_)
    refine filter_map_nil _ _ _ (fun e he => ?_)
    exact proto_line_false e.name
  have hstage : ((sortedStages pkgs).flatMap
        (fun s => "" :: writeStageLines s (stageFuncs s pkgs))).filter
      (fun l => linePrefixed "    /*** Stage " l) =
      (sortedStages pkgs).map
        (fun s => "    /*** Stage " ++ toString s ++ " */") := by
    rw [filter_flatMap]
    refine flatMap_congr_map _ _ _ (fun s _ => ?_)
    show (("" : String) :: ("    /*** Stage " ++ toString s ++ " */") ::
      stageCallLines s 0 (stageFuncs s pkgs)).filter _ = _
    rw [List.filter_cons, List.filter_cons]
    have h0 : linePrefixed "    /*** Stage " "" = false := by decide
    simp only [h0, header_line_true s, Bool.false_eq_true, if_false, if_true]
    rw [stageCallLines_filter s 0 _ ?_]
    intro pf hpf
    unfold stageFuncs at hpf
    obtain ⟨p, hp, hmap⟩ := List.mem_flatMap.mp hpf
    obtain ⟨e, he, hpe⟩ := List.mem_map.mp hmap
    have he' : e ∈ p.init := (List.mem_filter.mp he).1
    have : pf.2 = e.name := by rw [← hpe]
    rw [this]
    exact hnames p hp e he'
  have hif : linePrefixed "    /*** Stage "
      (if isLoader then "#if SPLIT_LOADER" else "#if !SPLIT_LOADER") = false := by
    cases isLoader <;> decide
  have hfn : linePrefixed "    /*** Stage "
      ((if isLoader then "sysinit_loader" else "sysinit_app") ++ "(void)") =
      false := by
    cases isLoader <;> decide
  have hpre : generatedPreambleLines.filter
      (fun l => linePrefixed "    /*** Stage " l) = [] := by decide
  have hl1 : linePrefixed "    /*** Stage " "" = false := by decide
  have hl2 : linePrefixed "    /*** Stage " "void" = false := by decide
  have hl3 : linePrefixed "    /*** Stage " "\x7b" = false := by decide
  have hl4 : linePrefixed "    /*** Stage " "\x7d" = false := by decide
  have hl5 : linePrefixed "    /*** Stage " "#endif" = false := by decide
  unfold stageHeaders writeLines
  simp only [List.filter_append, hproto, hstage, hpre]
  simp only [List.filter_cons, List.filter_nil, hif, hfn, hl1, hl2, hl3, hl4,
    hl5, Bool.false_eq_true, if_false]
  simp

theorem mem_writeLines_of_stagepart (pkgs : List LocalPackage)
    (isLoader : Bool) (l : String)
    (h : l ∈ (sortedStages pkgs).flatMap
      (fun s => "" :: writeStageLines s (stageFuncs s pkgs))) :
    l ∈ writeLines pkgs isLoader := by
  unfold writeLines
  simp only [List.mem_append]
  tauto

theorem mem_writeLines_of_proto (pkgs : List LocalPackage) (isLoader : Bool)
    (l : String) (h : l ∈ writePrototypesLines pkgs) :
    l ∈ writeLines pkgs isLoader := by
  unfold writeLines
  simp only [List.mem_append]
  tauto

/-- **C5.** The generated function body emits exactly one comment-labeled
block per registered stage (one `/*** Stage s */` header line per
distinct registered stage, and no other line carries that label), in
ascending numeric stage order without repetition; every registered entry
point contributes to its stage block a call line and a comment line
naming its owning package, and a prototype line to the prototype
section; and in the two-package scenario the stage-10 entry point
`a_init` is called before the stage-20 entry point `b_init`, both
appearing in the prototype block.  (The hypothesis rules out entry-point
names that themselves start with the comment opener `/`, which C
identifiers cannot.) -/
theorem write_stage_blocks (pkgs : List LocalPackage) (isLoader : Bool)
    (hnames : ∀ p ∈ pkgs, ∀ e ∈ p.init,
      (e.name.data ++ "();".data).head? ≠ some '/') :
    stageHeaders (writeLines pkgs isLoader) =
      (sortedStages pkgs).map
        (fun s => "    /*** Stage " ++ toString s ++ " */") ∧
    List.Sorted (fun a b : Int => a ≤ b) (sortedStages pkgs) ∧
    (sortedStages pkgs).Nodup ∧
    (∀ s : Int, s ∈ sortedStages pkgs ↔
      ∃ p ∈ pkgs, ∃ e ∈ p.init, e.stage = s) ∧
    (∀ p ∈ pkgs, ∀ e ∈ p.init,
      ("    " ++ e.name ++ "();") ∈ writeLines pkgs isLoader ∧
      (∃ j : Nat, ("    /* " ++ toString e.stage ++ "." ++ toString j ++
        ": " ++ p.name ++ " */") ∈ writeLines pkgs isLoader) ∧
      ("void " ++ e.name ++ "(void);") ∈ writeLines pkgs isLoader) ∧
    ((writeLines [scenarioPkgA, scenarioPkgB] false).indexOf "    a_init();" <
      (writeLines [scenarioPkgA, scenarioPkgB] false).indexOf
        "    b_init();") ∧
    "void a_init(void);" ∈ writeLines [scenarioPkgA, scenarioPkgB] false ∧
    "void b_init(void);" ∈ writeLines [scenarioPkgA, scenarioPkgB] false := by
  have h4 : ∀ s : Int, s ∈ sortedStages pkgs ↔
      ∃ p ∈ pkgs, ∃ e ∈ p.init, e.stage = s := by
    intro s
    unfold sortedStages
    rw [(List.perm_insertionSort _ _).mem_iff, List.mem_dedup]
    unfold registeredStages
    simp [List.mem_flatMap, List.mem_map]
  refine ⟨stageHeaders_writeLines pkgs isLoader hnames,
    List.sorted_insertionSort _ _,
    ((List.perm_insertionSort _ _).nodup_iff).mpr (List.nodup_dedup _),
    h4, ?_, by decide, by decide, by decide⟩
  intro p hp e he
  have hs : e.stage ∈ sortedStages pkgs := (h4 e.stage).mpr ⟨p, hp, e, he, rfl⟩
  have hfuncs : (p.name, e.name) ∈ stageFuncs e.stage pkgs := by
    unfold stageFuncs
    exact List.mem_flatMap.mpr ⟨p, hp,
      List.mem_map_of_mem _ (List.mem_filter.mpr ⟨he, by simp⟩)⟩
  obtain ⟨hcall, j, hcmt⟩ := stageCallLines_mem e.stage p.name e.name 0
    (stageFuncs e.stage pkgs) hfuncs
  have hblock : ∀ l : String,
      l ∈ writeStageLines e.stage (stageFuncs e.stage pkgs) →
      l ∈ writeLines pkgs isLoader := by
    intro l hl
    exact mem_writeLines_of_stagepart pkgs isLoader l
      (List.mem_flatMap.mpr ⟨e.stage, hs, List.mem_cons_of_mem _ hl⟩)
  refine ⟨hblock _ (List.mem_cons_of_mem _ hcall),
    ⟨j, hblock _ (List.mem_cons_of_mem _ hcmt)⟩, ?_⟩
  refine mem_writeLines_of_proto pkgs isLoader _ ?_
  unfold writePrototypesLines
  exact List.mem_flatMap.mpr ⟨p,
    ((List.perm_insertionSort _ pkgs).mem_iff).mpr hp,
    List.mem_map_of_mem _ he⟩

/-- **C5 witness.** The amended theorem applied to the scenario packages:
the generated file for packages A (stage 10) and B (stage 20) carries
exactly the two stage headers, in ascending order. -/
theorem write_stage_blocks_witness :
    stageHeaders (writeLines [scenarioPkgA, scenarioPkgB] false) =
      ["    /*** Stage 10 */", "    /*** Stage 20 */"] := by
  have h := (write_stage_blocks [scenarioPkgA, scenarioPkgB] false
    (by decide)).1
  rw [h]
  decide

/-! ## Configuration grouping lemmas -/

theorem flatMap_map {α β : Type} (f : α → β) (g : β → List String) :
    ∀ l : List α, (l.map f).flatMap g = l.flatMap (fun a => g (f a)) := by
  intro l
  induction l with
  | nil => rfl
  | cons a l ih => simp [List.flatMap_cons, ih]

theorem filter_intercalate (p : String → Bool) (hb : p "" = false) :
    ∀ gs : List (List String),
      (List.intercalate [""] gs).filter p = gs.flatMap (fun g => g.filter p) := by
  intro gs
  induction gs with
  | nil => rfl
  | cons g rest ih =>
    cases rest with
    | nil =>
      rw [show List.intercalate [""] [g] = g by
        simp [List.intercalate, List.intersperse]]
      simp [List.flatMap_cons]
    | cons h' t =>
      rw [show List.intercalate [""] (g :: h' :: t) =
          g ++ ("" :: List.intercalate [""] (h' :: t)) by
        simp [List.intercalate, List.intersperse]]
      rw [List.filter_append, List.filter_cons, hb]
      simp only [Bool.false_eq_true, if_false]
      rw [ih]
      simp [List.flatMap_cons]

theorem lookup_mem {β : Type} (k : String) (v : β) :
    ∀ l : List (String × β), List.lookup k l = some v → (k, v) ∈ l := by
  intro l
  induction l with
  | nil => intro h; cases h
  | cons p rest ih =>
    intro h
    obtain ⟨a, b⟩ := p
    rw [lookup_cons] at h
    by_cases hk : k = a
    · rw [if_pos hk] at h
      subst hk
      rw [Option.some.injEq] at h
      subst h
      exact List.mem_cons_self _ _
    · rw [if_neg hk] at h
      exact List.mem_cons_of_mem _ (ih h)

theorem pkgGroup_subset (cfg : Cfg) (p : String) :
    ∀ e ∈ pkgGroup cfg p, e ∈ cfgEntries cfg := by
  intro e he
  unfold pkgGroup at he
  cases hl : List.lookup p (EntriesByPkg cfg) with
  | none => rw [hl] at he; cases he
  | some es =>
    rw [hl] at he
    have hmem := lookup_mem p es (EntriesByPkg cfg) hl
    unfold EntriesByPkg at hmem
    obtain ⟨q, _, hq⟩ := List.mem_map.mp hmem
    have hes : es = (cfgEntries cfg).filter (fun e => originOf e = q) := by
      have := congrArg Prod.snd hq
      simpa using this.symm
    rw [hes] at he
    exact (List.mem_filter.mp he).1

theorem printSettingLines_filter_pkg (e : CfgEntry) :
    (printSettingLines e).filter (fun l => linePrefixed "* PACKAGE: " l) = [] := by
  unfold printSettingLines
  rw [List.filter_append]
  have h1 : linePrefixed "* PACKAGE: " ("  * Setting: " ++ e.name) = false :=
    linePrefixed_mismatch _ _ [] (" PACKAGE: ".data) (" * Setting: ".data)
      '*' ' ' (by decide) (by decide) (by decide) _
  have h2 : linePrefixed "* PACKAGE: "
      ("    * Description: " ++ e.description) = false :=
    linePrefixed_mismatch _ _ [] (" PACKAGE: ".data)
      ("   * Description: ".data) '*' ' ' (by decide) (by decide) (by decide) _
  have h3 : linePrefixed "* PACKAGE: " ("    * Value: " ++ e.value) = false :=
    linePrefixed_mismatch _ _ [] (" PACKAGE: ".data) ("   * Value: ".data)
      '*' ' ' (by decide) (by decide) (by decide) _
  simp only [List.filter_cons, List.filter_nil, h1, h2, h3,
    Bool.false_eq_true, if_false, List.nil_append]
  by_cases hlen : e.history.length > 1
  · rw [if_pos hlen]
    rw [List.filter_cons]
    rw [show linePrefixed "* PACKAGE: "
        ("    * Overridden: " ++
          String.join ((e.history.drop 1).map (fun h => h.sourceName ++ ", ")) ++
          "default=" ++ (e.history.headD ⟨"", ""⟩).value) = false by
      simp only [String.append_assoc]
      exact linePrefixed_mismatch _ _ [] (" PACKAGE: ".data)
        ("   * Overridden: ".data) '*' ' ' (by decide) (by decide)
        (by decide) _]
    simp
  · rw [if_neg hlen]
    rfl

theorem printPkgCfg_filter (p' : String) (cfg : Cfg) (es : List CfgEntry) :
    (printPkgCfgLines p' cfg es).filter
      (fun l => linePrefixed "* PACKAGE: " l) = ["* PACKAGE: " ++ p'] := by
  unfold printPkgCfgLines
  rw [List.filter_cons, linePrefixed_self_append]
  simp only [if_true]
  rw [filter_flatMap]
  rw [flatMap_eq_nil_of _ _ (fun n _ => printSettingLines_filter_pkg (cfgGet cfg n))]

theorem yaml_setting_line_false (n v : String) (hn : n.data.head? ≠ some '#') :
    linePrefixed "    ### " ("    " ++ n ++ ": '" ++ v ++ "'") = false := by
  simp only [String.append_assoc]
  refine linePrefixed_var_false _ _ ("    ".data) ("## ".data) '#'
    (by decide) (by decide) n (": '" ++ (v ++ "'")) ?_
  refine head?_append_ne _ _ _ hn ?_
  rw [String.data_append]
  intro hcontra
  simp at hcontra

theorem yamlPkgCfg_filter (p' : String) (cfg : Cfg) (es : List CfgEntry)
    (hn : ∀ n ∈ es.map (fun e => e.name), n.data.head? ≠ some '#') :
    (yamlPkgCfgLines p' cfg es).filter
      (fun l => linePrefixed "    ### " l) = ["    ### " ++ p'] := by
  unfold yamlPkgCfgLines
  rw [List.filter_cons, linePrefixed_self_append]
  simp only [if_true]
  rw [filter_map_nil]
  intro n hnmem
  have hn' : n ∈ es.map (fun e => e.name) := by
    unfold sortStr at hnmem
    exact (List.perm_insertionSort _ _).mem_iff.mp hnmem
  exact yaml_setting_line_false n (cfgGet cfg n).value (hn n hn')

/-- **C8.** Both the human-facing configuration listing and the yaml
export group settings by originating package: the sequence of package
header lines each output carries is exactly one header per originating
package, in byte-order-sorted package-name order; every entry of a group
originates from that group's package; and within every group the
settings are listed in name-sorted order (both output functions render
the group through the same name-sort).  (The hypothesis rules out
setting names starting with `#`, which would be indistinguishable from a
yaml group header.) -/
theorem cfg_output_grouped_sorted (targetName : String) (cfg : Cfg)
    (hhash : ∀ kv ∈ cfg.settings,
      (kv.2 : CfgEntry).name.data.head? ≠ some '#') :
    ((printCfgLines targetName cfg).filter
        (fun l => linePrefixed "* PACKAGE: " l) =
      (sortedPkgNames cfg).map (fun p => "* PACKAGE: " ++ p)) ∧
    ((yamlCfgLines cfg).filter (fun l => linePrefixed "    ### " l) =
      (sortedPkgNames cfg).map (fun p => "    ### " ++ p)) ∧
    List.Sorted (fun a b => strLe a b = true) (sortedPkgNames cfg) ∧
    (∀ g ∈ EntriesByPkg cfg, ∀ e ∈ g.2, originOf e = g.1) ∧
    (∀ entries : List CfgEntry,
      List.Sorted (fun a b => strLe a b = true)
        (sortStr (entries.map (fun e => e.name)))) := by
  have hentry : ∀ e ∈ cfgEntries cfg, e.name.data.head? ≠ some '#' := by
    intro e he
    obtain ⟨kv, hkv, hkv2⟩ := List.mem_map.mp he
    exact hkv2 ▸ hhash kv hkv
  refine ⟨?_, ?_, List.sorted_insertionSort _ _, ?_,
    fun entries => List.sorted_insertionSort _ _⟩
  · unfold printCfgLines
    rw [List.filter_append, List.filter_append]
    have herr : (if cfg.errorText ≠ "" then ["!!! " ++ cfg.errorText, ""]
        else []).filter (fun l => linePrefixed "* PACKAGE: " l) = [] := by
      by_cases he : cfg.errorText ≠ ""
      · rw [if_pos he]
        rw [List.filter_cons,
          show linePrefixed "* PACKAGE: " ("!!! " ++ cfg.errorText) = false from
            linePrefixed_mismatch _ _ [] (" PACKAGE: ".data) ("!! ".data)
              '*' '!' (by decide) (by decide) (by decide) _]
        simp [show linePrefixed "* PACKAGE: " "" = false by decide]
      · rw [if_neg he]
        rfl
    have hhdr : (["Syscfg for " ++ targetName ++ ":"]).filter
        (fun l => linePrefixed "* PACKAGE: " l) = [] := by
      rw [List.filter_cons,
        show linePrefixed "* PACKAGE: " ("Syscfg for " ++ targetName ++ ":") =
            false by
          simp only [String.append_assoc]
          exact linePrefixed_mismatch _ _ [] (" PACKAGE: ".data)
            ("yscfg for ".data) '*' 'S' (by decide) (by decide) (by decide) _]
      simp
    rw [herr, hhdr, filter_intercalate _ (by decide), flatMap_map]
    rw [flatMap_congr_map _ _ _
      (fun p _ => printPkgCfg_filter p cfg (pkgGroup cfg p))]
    simp
  · unfold yamlCfgLines
    rw [List.filter_cons,
      show linePrefixed "    ### " "syscfg.vals:" = false by decide]
    simp only [Bool.false_eq_true, if_false]
    rw [filter_intercalate _ (by decide), flatMap_map]
    rw [flatMap_congr_map _ _ _ (fun p _ => yamlPkgCfg_filter p cfg
      (pkgGroup cfg p) (fun n hnm => ?_))]
    obtain ⟨e, he, hne⟩ := List.mem_map.mp hnm
    exact hne ▸ hentry e (pkgGroup_subset cfg p e he)
  · intro g hg e he
    unfold EntriesByPkg at hg
    obtain ⟨q, _, hq⟩ := List.mem_map.mp hg
    subst hq
    have := (List.mem_filter.mp he).2
    simpa using this

/-- **C8 witness.** The grouped-and-sorted output theorem applied to the
concrete two-package configuration. -/
theorem cfg_output_grouped_sorted_witness :
    (printCfgLines "tgt" demoCfg).filter
        (fun l => linePrefixed "* PACKAGE: " l) =
      ["* PACKAGE: pkgA", "* PACKAGE: pkgB"] ∧
    (yamlCfgLines demoCfg).filter (fun l => linePrefixed "    ### " l) =
      ["    ### pkgA", "    ### pkgB"] := by
  have h := cfg_output_grouped_sorted "tgt" demoCfg (by decide)
  refine ⟨?_, ?_⟩
  · rw [h.1]; decide
  · rw [h.2.1]; decide

end Newt
